import Mathlib

/-!
Shallow embedding of bloomd's filter manager (src/bloomd/filter_manager.c).

The filter manager is a multi-version registry mapping filter names to
wrapped bloom filters.  Destructive operations (create / drop / clear)
install a fresh version whose name index is a structural copy of the
previous one; superseded versions are reclaimed by the vacuum path
(clean_old_versions).  The underlying bloom filter and the ART index are
external collaborators; they are modelled abstractly here: the index as an
association list, the filter as its observable attributes, and the per-key
filter calls (bloomf_contains / bloomf_add) as oracle functions.

Allocation failure of the index copy (art_copy) is modelled by the
`copyOk` flag handed to the operations; failure of init_bloom_filter by
the `initRes` oracle of add_filter.  In the C source, create_new_version
returns NULL when art_copy fails, and its callers use the NULL pointer
without checking (art_insert / art_delete / destroy_art_tree on the NULL
version) — undefined behavior, modelled as result `none`.
-/

set_option autoImplicit false

namespace Bloomd

/-- The observable part of the external `bloom_filter` object: its name
(`filter_name`), whether its config keeps it in memory
(`filter_config.in_memory`), and whether it is proxied
(`bloomf_is_proxied`). -/
structure BloomFilter where
  filter_name : String
  in_memory : Bool
  proxied : Bool
  deriving Repr, DecidableEq

/-- `bloom_filter_wrapper`: lifecycle flags plus the wrapped filter. -/
structure Wrapper where
  is_active : Bool
  is_hot : Bool
  should_delete : Bool
  filter : BloomFilter
  deriving Repr, DecidableEq

/-- What `delete_filter` does to the underlying files: `bloomf_delete`
(remove files) when `should_delete` is set, otherwise `bloomf_close`
(close in memory only). -/
inductive FilterAction where
  | deleteFiles
  | closeOnly
  deriving Repr, DecidableEq

/-- The per-version name index (`art_tree filter_map`), modelled as an
association list from filter name to wrapper.  All manager operations
keep keys unique. -/
abbrev FilterMap := List (String × Wrapper)

/-- `filtmgr_vsn`: version number, name index, and the at-most-one wrapper
removed in the transition out of this version (`deleted`).  The `prev`
pointer is represented by the position in the manager's chain list. -/
structure Vsn where
  vsn : Nat
  filter_map : FilterMap
  deleted : Option Wrapper
  deriving Repr, DecidableEq

/-- `bloom_filtmgr`, restricted to the registry state: `latest` is the
head version, `older` the chain reachable through `prev` (head of `older`
is `latest.prev`). -/
structure Mgr where
  latest : Vsn
  older : List Vsn
  deriving Repr, DecidableEq

/-- `art_search`: point lookup in the name index. -/
def art_search : FilterMap → String → Option Wrapper
  | [], _ => none
  | (k, w) :: rest, key => if k = key then some w else art_search rest key

/-- `art_insert`: insert or replace the binding for a key. -/
def art_insert : FilterMap → String → Wrapper → FilterMap
  | [], k, w => [(k, w)]
  | (k0, w0) :: rest, k, w =>
    if k0 = k then (k, w) :: rest else (k0, w0) :: art_insert rest k w

/-- `art_delete`: remove the binding for a key (the wrapper itself is not
destroyed). -/
def art_delete : FilterMap → String → FilterMap
  | [], _ => []
  | (k0, w0) :: rest, k =>
    if k0 = k then rest else (k0, w0) :: art_delete rest k

/-- In the C source the index stores pointers, so mutating the wrapper
found under a key is visible through the index.  `set_wrapper` models
that in-place mutation: it replaces the value stored at the key. -/
def set_wrapper : FilterMap → String → Wrapper → FilterMap
  | [], _, _ => []
  | (k0, w0) :: rest, k, w =>
    if k0 = k then (k, w) :: rest else (k0, w0) :: set_wrapper rest k w

/-- `take_filter`: look the name up and return the wrapper iff it is
found and `is_active`. -/
def take_filter (vsn : Vsn) (filter_name : String) : Option Wrapper :=
  match art_search vsn.filter_map filter_name with
  | none => none
  | some filt => if filt.is_active then some filt else none

/-- `delete_filter`: honors `should_delete` — the files are removed
(`bloomf_delete`) iff it is set, else the filter is merely closed
(`bloomf_close`); the filter object and wrapper are then freed. -/
def delete_filter (filt : Wrapper) : FilterAction :=
  if filt.should_delete then FilterAction.deleteFiles else FilterAction.closeOnly

/-- `add_filter`: allocates a wrapper with `is_active = 1`,
`is_hot = <arg>`, `should_delete = 0`, constructs the underlying filter
via `init_bloom_filter` (modelled by the `initRes` oracle: `none` is
failure, `some a` yields a filter with the given name and attributes) and
inserts it into the version's index.  Returns `none` on failure (the C
code frees the wrapper and returns -1). -/
def add_filter (vsn : Vsn) (filter_name : String) (is_hot : Bool)
    (initRes : Option BloomFilter) : Option Vsn :=
  match initRes with
  | none => none
  | some f =>
    let filt : Wrapper :=
      { is_active := true, is_hot := is_hot, should_delete := false,
        filter := { f with filter_name := filter_name } }
    some { vsn with filter_map := art_insert vsn.filter_map filter_name filt }

/-- `create_new_version`: new version with `vsn = latest.vsn + 1`,
`prev = latest` (the chain position), and an index copied structurally
from the latest version (`art_copy`).  When the copy fails (out of
memory, modelled by `copyOk = false`) the C function logs and returns
NULL. -/
def create_new_version (m : Mgr) (copyOk : Bool) : Option Vsn :=
  if copyOk then
    some { vsn := m.latest.vsn + 1, filter_map := m.latest.filter_map, deleted := none }
  else none

/-- `filtmgr_create_filter`: -1 if the name is already bound in the
latest index (regardless of `is_active`); -3 if some older unreclaimed
version parks a deleted wrapper of the same name; otherwise build a new
version and add the filter (hot).  On add failure the new version is
destroyed and -2 returned.  When the index copy fails the C code passes
the NULL version to add_filter / destroy_version, which dereference it:
undefined behavior, modelled as `none`. -/
def filtmgr_create_filter (m : Mgr) (filter_name : String) (copyOk : Bool)
    (initRes : Option BloomFilter) : Option (Int × Mgr) :=
  match art_search m.latest.filter_map filter_name with
  | some _ => some (-1, m)
  | none =>
    if m.older.any (fun vsn => match vsn.deleted with
        | some w => w.filter.filter_name == filter_name
        | none => false) then
      some (-3, m)
    else
      match create_new_version m copyOk with
      | none => none
      | some new_vsn =>
        match add_filter new_vsn filter_name true initRes with
        | none => some (-2, m)
        | some new_vsn2 => some (0, { latest := new_vsn2, older := m.latest :: m.older })

/-- `filtmgr_drop_filter`: resolve via take_filter (-1 if absent or
inactive); set `is_active = 0`, `should_delete = 1` on the shared
wrapper; build a new version, delete the name from its index, park the
wrapper in the superseded version's `deleted` slot, install.  A failing
index copy leads to the NULL version being dereferenced (`none`). -/
def filtmgr_drop_filter (m : Mgr) (filter_name : String) (copyOk : Bool) :
    Option (Int × Mgr) :=
  match take_filter m.latest filter_name with
  | none => some (-1, m)
  | some filt =>
    let filt2 := { filt with is_active := false, should_delete := true }
    let current : Vsn :=
      { m.latest with filter_map := set_wrapper m.latest.filter_map filter_name filt2 }
    match create_new_version { m with latest := current } copyOk with
    | none => none
    | some new_vsn =>
      some (0, { latest := { new_vsn with filter_map := art_delete new_vsn.filter_map filter_name },
                 older := { current with deleted := some filt2 } :: m.older })

/-- `filtmgr_clear_filter`: as drop, but requires the filter to be
proxied (-2 otherwise) and sets `should_delete = 0` so reclamation merely
closes it. -/
def filtmgr_clear_filter (m : Mgr) (filter_name : String) (copyOk : Bool) :
    Option (Int × Mgr) :=
  match take_filter m.latest filter_name with
  | none => some (-1, m)
  | some filt =>
    if !filt.filter.proxied then some (-2, m)
    else
      let filt2 := { filt with is_active := false, should_delete := false }
      let current : Vsn :=
        { m.latest with filter_map := set_wrapper m.latest.filter_map filter_name filt2 }
      match create_new_version { m with latest := current } copyOk with
      | none => none
      | some new_vsn =>
        some (0, { latest := { new_vsn with filter_map := art_delete new_vsn.filter_map filter_name },
                   older := { current with deleted := some filt2 } :: m.older })

/-- `filtmgr_flush_filter`: resolve and flush (the flush itself is
external); -1 if absent or inactive.  The registry state is unchanged. -/
def filtmgr_flush_filter (m : Mgr) (filter_name : String) : Int × Mgr :=
  match take_filter m.latest filter_name with
  | none => (-1, m)
  | some _ => (0, m)

/-- `filtmgr_unmap_filter`: resolve; when the filter is not in-memory,
close it under the write lock (external effect).  The registry state is
unchanged; -1 if absent or inactive. -/
def filtmgr_unmap_filter (m : Mgr) (filter_name : String) : Int × Mgr :=
  match take_filter m.latest filter_name with
  | none => (-1, m)
  | some _ => (0, m)

/-- The loop body of `filtmgr_check_keys` / `filtmgr_set_keys`: walk the
keys, asking the oracle `f` for each; on the first -1 stop, leaving the
remaining result slots untouched; otherwise store the answer in the slot.
Returns the updated result array and the final `res` code (0 if the loop
completed, -1 if it broke). -/
def key_loop (f : String → Int) : List String → List Int → List Int × Int
  | [], result => (result, 0)
  | _ :: _, [] => ([], 0)
  | k :: ks, r :: rs =>
    let res := f k
    if res = -1 then (r :: rs, -1)
    else
      let rest := key_loop f ks rs
      (res :: rest.1, rest.2)

/-- `filtmgr_check_keys`: resolve via take_filter (-1 if absent or
inactive, result untouched); run the key loop with `bloomf_contains`
(oracle `contains`); mark the wrapper hot (unconditionally, before
releasing the lock); return -2 if the loop hit an internal error, else
0. -/
def filtmgr_check_keys (m : Mgr) (filter_name : String) (contains : String → Int)
    (keys : List String) (result : List Int) : Int × Mgr × List Int :=
  match take_filter m.latest filter_name with
  | none => (-1, m, result)
  | some filt =>
    let r := key_loop contains keys result
    let m2 : Mgr := { m with latest := { m.latest with
      filter_map := set_wrapper m.latest.filter_map filter_name { filt with is_hot := true } } }
    ((if r.2 = -1 then -2 else 0), m2, r.1)

/-- `filtmgr_set_keys`: same shape as check_keys, with `bloomf_add`
(oracle `add`) as the per-key call. -/
def filtmgr_set_keys (m : Mgr) (filter_name : String) (add : String → Int)
    (keys : List String) (result : List Int) : Int × Mgr × List Int :=
  match take_filter m.latest filter_name with
  | none => (-1, m, result)
  | some filt =>
    let r := key_loop add keys result
    let m2 : Mgr := { m with latest := { m.latest with
      filter_map := set_wrapper m.latest.filter_map filter_name { filt with is_hot := true } } }
    ((if r.2 = -1 then -2 else 0), m2, r.1)

/-- `filter_map_list_cb`: skip non-active wrappers, otherwise prepend the
key to the output list. -/
def filter_map_list_cb (acc : List String) (key : String) (filt : Wrapper) : List String :=
  if !filt.is_active then acc else key :: acc

/-- The ART prefix iteration visits the keys whose leading characters
equal the prefix; modelled as a comparison of the leading characters. -/
def starts_with (k p : String) : Bool :=
  k.data.take p.data.length == p.data

/-- `filtmgr_list_filters`: iterate the latest index (restricted to keys
beginning with `pfx` when given) through filter_map_list_cb. -/
def filtmgr_list_filters (m : Mgr) (pfx : Option String) : List String :=
  match pfx with
  | some p =>
    (m.latest.filter_map.filter (fun kv => starts_with kv.1 p)).foldl
      (fun acc kv => filter_map_list_cb acc kv.1 kv.2) []
  | none =>
    m.latest.filter_map.foldl (fun acc kv => filter_map_list_cb acc kv.1 kv.2) []

/-- `filter_map_list_cold_cb`: a hot wrapper is demoted to cold and
skipped; a proxied one is skipped; otherwise the key is emitted.  The
`is_active` flag is never consulted.  Returns the (possibly updated)
wrapper together with the output list. -/
def filter_map_list_cold_cb (acc : List String) (key : String) (filt : Wrapper) :
    Wrapper × List String :=
  if filt.is_hot then ({ filt with is_hot := false }, acc)
  else if filt.filter.proxied then (filt, acc)
  else (filt, key :: acc)

/-- Iterating the index through filter_map_list_cold_cb: each entry's
wrapper is updated in place and the cold keys are collected. -/
def cold_scan : FilterMap → List String → FilterMap × List String
  | [], acc => ([], acc)
  | (k, w) :: rest, acc =>
    let r := filter_map_list_cold_cb acc k w
    let r2 := cold_scan rest r.2
    ((k, r.1) :: r2.1, r2.2)

/-- `filtmgr_list_cold_filters`: scan the latest index for cold filters,
demoting hot ones as a side effect. -/
def filtmgr_list_cold_filters (m : Mgr) : List String × Mgr :=
  let r := cold_scan m.latest.filter_map []
  (r.2, { m with latest := { m.latest with filter_map := r.1 } })

/-- `filter_bloomd_folders`: the scandir filter — reject names shorter
than 8 characters, accept exactly those beginning with the literal
prefix string "bloomd.". -/
def filter_bloomd_folders (name : String) : Bool :=
  if name.length < 8 then false
  else name.data.take 7 == "bloomd.".data

/-- `load_existing_filters`, restricted to name handling: for each
directory entry accepted by filter_bloomd_folders, the filter name is the
entry name with the 7-character folder head stripped. -/
def load_existing_filters (entries : List String) : List String :=
  (entries.filter (fun n => filter_bloomd_folders n)).map (fun n => n.drop 7)

/-- `init_filter_manager`, restricted to the registry: the initial
version has number 0, no `deleted`, no previous version; its index is
whatever the loader populated. -/
def init_filter_manager (loaded : FilterMap) : Mgr :=
  { latest := { vsn := 0, filter_map := loaded, deleted := none }, older := [] }

/-- The outcome of one `clean_old_versions` call: the surviving chain,
the versions destroyed (in destruction order, deepest first), the
delete_filter actions performed on parked wrappers (in order), and
whether the node the call was made on was itself destroyed (the C return
value). -/
structure CleanResult where
  surv : List Vsn
  destroyed : List Vsn
  actions : List FilterAction
  headGone : Bool
  deriving Repr, DecidableEq

/-- `clean_old_versions(v, min_vsn)`: recurse into `prev` first and clear
the `prev` link when the recursive call destroyed it; keep this version
when `vsn >= min_vsn`; otherwise run delete_filter on its parked wrapper
(if any), destroy the version and report it destroyed. -/
def clean_old_versions (min_vsn : Nat) : List Vsn → CleanResult
  | [] => { surv := [], destroyed := [], actions := [], headGone := false }
  | v :: rest =>
    let r := clean_old_versions min_vsn rest
    let newPrev := if r.headGone then [] else r.surv
    if min_vsn ≤ v.vsn then
      { surv := v :: newPrev, destroyed := r.destroyed, actions := r.actions,
        headGone := false }
    else
      { surv := newPrev, destroyed := r.destroyed ++ [v],
        actions := r.actions ++ (match v.deleted with
          | some w => [delete_filter w]
          | none => []),
        headGone := true }

/-- `filtmgr_vacuum`: clean the whole chain with `min_vsn = latest.vsn`.
The head always satisfies `vsn >= min_vsn`, so it survives and remains
installed as `latest`. -/
def filtmgr_vacuum (m : Mgr) : Mgr × CleanResult :=
  let r := clean_old_versions m.latest.vsn (m.latest :: m.older)
  ({ latest := r.surv.headD m.latest, older := r.surv.tail }, r)

/-- States of the registry reachable from initialization through the
manager's operations. -/
inductive Reachable : Mgr → Prop where
  | init : ∀ loaded, Reachable (init_filter_manager loaded)
  | create_step : ∀ m name copyOk initRes res m', Reachable m →
      filtmgr_create_filter m name copyOk initRes = some (res, m') → Reachable m'
  | drop_step : ∀ m name copyOk res m', Reachable m →
      filtmgr_drop_filter m name copyOk = some (res, m') → Reachable m'
  | clear_step : ∀ m name copyOk res m', Reachable m →
      filtmgr_clear_filter m name copyOk = some (res, m') → Reachable m'
  | check_step : ∀ m name contains keys result, Reachable m →
      Reachable (filtmgr_check_keys m name contains keys result).2.1
  | set_step : ∀ m name add keys result, Reachable m →
      Reachable (filtmgr_set_keys m name add keys result).2.1
  | cold_step : ∀ m, Reachable m → Reachable (filtmgr_list_cold_filters m).2
  | vacuum_step : ∀ m, Reachable m → Reachable (filtmgr_vacuum m).1

/-- The version-number trace of a manager's chain, head (latest) first. -/
def vsns (m : Mgr) : List Nat :=
  (m.latest :: m.older).map Vsn.vsn

/-- The chain invariant: version numbers strictly decrease from `latest`
towards the tail, i.e. strictly increase from tail to head. -/
def ChainOrd (m : Mgr) : Prop :=
  (m.latest :: m.older).Pairwise (fun a b => b.vsn < a.vsn)

/-! ### Lemmas about the index operations -/

theorem art_search_set_wrapper (fm : FilterMap) (k : String) (w0 w : Wrapper)
    (h : art_search fm k = some w0) :
    art_search (set_wrapper fm k w) k = some w := by
  induction fm with
  | nil => simp [art_search] at h
  | cons kv rest ih =>
    obtain ⟨k0, w1⟩ := kv
    by_cases hk : k0 = k
    · subst hk
      simp [art_search, set_wrapper]
    · simp only [art_search, set_wrapper, if_neg hk] at h ⊢
      exact ih h

theorem art_delete_set_wrapper (fm : FilterMap) (k : String) (w : Wrapper) :
    art_delete (set_wrapper fm k w) k = art_delete fm k := by
  induction fm with
  | nil => rfl
  | cons kv rest ih =>
    obtain ⟨k0, w1⟩ := kv
    by_cases hk : k0 = k
    · subst hk
      simp [set_wrapper, art_delete]
    · simp [set_wrapper, art_delete, hk, ih]

theorem mem_art_delete (fm : FilterMap) (k : String) (kv : String × Wrapper)
    (h : kv ∈ art_delete fm k) : kv ∈ fm := by
  induction fm with
  | nil => simp [art_delete] at h
  | cons kv0 rest ih =>
    obtain ⟨k0, w0⟩ := kv0
    by_cases hk : k0 = k
    · subst hk
      simp only [art_delete, if_pos rfl] at h
      exact List.mem_cons_of_mem _ h
    · simp only [art_delete, if_neg hk] at h
      rcases List.mem_cons.mp h with h1 | h1
      · exact h1 ▸ List.mem_cons_self _ _
      · exact List.mem_cons_of_mem _ (ih h1)

theorem art_search_insert (fm : FilterMap) (k : String) (w : Wrapper) :
    art_search (art_insert fm k w) k = some w := by
  induction fm with
  | nil => simp [art_insert, art_search]
  | cons kv rest ih =>
    obtain ⟨k0, w0⟩ := kv
    by_cases hk : k0 = k
    · subst hk
      simp [art_insert, art_search]
    · simp [art_insert, art_search, hk, ih]

theorem art_search_of_mem_nodup (fm : FilterMap) (k : String) (w : Wrapper)
    (hnd : (fm.map Prod.fst).Nodup) (h : (k, w) ∈ fm) :
    art_search fm k = some w := by
  induction fm with
  | nil => simp at h
  | cons kv rest ih =>
    obtain ⟨k0, w0⟩ := kv
    simp only [List.map_cons, List.nodup_cons] at hnd
    rcases List.mem_cons.mp h with h1 | h1
    · obtain ⟨hk, hw⟩ := Prod.mk.injEq .. ▸ h1
      simp [art_search, hk, hw]
    · have hk : k0 ≠ k := by
        intro he
        exact hnd.1 (he ▸ (List.mem_map.mpr ⟨(k, w), h1, rfl⟩))
      simp only [art_search, if_neg hk]
      exact ih hnd.2 h1

theorem mem_unique_of_nodup (fm : FilterMap) (hnd : (fm.map Prod.fst).Nodup)
    (k : String) (w w' : Wrapper) (h : (k, w) ∈ fm) (h' : (k, w') ∈ fm) : w = w' := by
  have h1 := art_search_of_mem_nodup fm k w hnd h
  have h2 := art_search_of_mem_nodup fm k w' hnd h'
  rw [h1] at h2
  exact Option.some.inj h2

/-! ### Lemmas about take_filter -/

theorem take_filter_some (v : Vsn) (n : String) (w : Wrapper)
    (h : take_filter v n = some w) :
    art_search v.filter_map n = some w ∧ w.is_active = true := by
  unfold take_filter at h
  cases hs : art_search v.filter_map n with
  | none => rw [hs] at h; simp at h
  | some filt =>
    rw [hs] at h
    by_cases ha : filt.is_active
    · simp only [ha, if_true] at h
      cases h
      exact ⟨rfl, ha⟩
    · simp [ha] at h

theorem take_filter_eq_none_iff (v : Vsn) (n : String) :
    take_filter v n = none ↔ (art_search v.filter_map n = none ∨
      ∃ w, art_search v.filter_map n = some w ∧ w.is_active = false) := by
  unfold take_filter
  cases hs : art_search v.filter_map n with
  | none => simp
  | some filt =>
    by_cases ha : filt.is_active
    · simp [ha]
    · simp [ha]

/-! ### Lemmas about the batch loop -/

theorem key_loop_ok (f : String → Int) :
    ∀ (keys : List String) (result : List Int), keys.length = result.length →
    (∀ k ∈ keys, f k ≠ -1) → key_loop f keys result = (keys.map f, 0) := by
  intro keys
  induction keys with
  | nil =>
    intro result hlen _
    cases result with
    | nil => rfl
    | cons r rs => simp at hlen
  | cons k ks ih =>
    intro result hlen hok
    cases result with
    | nil => simp at hlen
    | cons r rs =>
      have hnot : ¬(f k = -1) := hok k (List.mem_cons_self _ _)
      have hrest := ih rs (by simpa using hlen) (fun x hx => hok x (List.mem_cons_of_mem _ hx))
      simp [key_loop, hnot, hrest]

theorem key_loop_err (f : String → Int) :
    ∀ (keys : List String) (result : List Int) (i : Nat) (hi : i < keys.length),
      keys.length = result.length →
      f (keys.get ⟨i, hi⟩) = -1 →
      (∀ (j : Nat) (hj : j < i), f (keys.get ⟨j, hj.trans hi⟩) ≠ -1) →
      key_loop f keys result = ((keys.take i).map f ++ result.drop i, -1) := by
  intro keys
  induction keys with
  | nil =>
    intro result i hi
    simp at hi
  | cons k ks ih =>
    intro result i hi hlen herr hok
    cases result with
    | nil => simp at hlen
    | cons r rs =>
      cases i with
      | zero =>
        simp only [List.get] at herr
        simp [key_loop, herr]
      | succ j =>
        have hnot : ¬(f k = -1) := hok 0 (Nat.succ_pos j)
        have hj : j < ks.length := Nat.lt_of_succ_lt_succ hi
        have hrest := ih rs j hj (by simpa using hlen)
          (by simpa using herr)
          (fun j' hj' => by
            have := hok (j' + 1) (Nat.succ_lt_succ hj')
            simpa using this)
        simp [key_loop, hnot, hrest]

/-! ### Lemmas about clean_old_versions -/

theorem clean_cons_ge (min_vsn : Nat) (v : Vsn) (rest : List Vsn) (h : min_vsn ≤ v.vsn) :
    clean_old_versions min_vsn (v :: rest) =
      { surv := v :: (if (clean_old_versions min_vsn rest).headGone then []
                      else (clean_old_versions min_vsn rest).surv),
        destroyed := (clean_old_versions min_vsn rest).destroyed,
        actions := (clean_old_versions min_vsn rest).actions,
        headGone := false } := by
  simp [clean_old_versions, h]

theorem clean_cons_lt (min_vsn : Nat) (v : Vsn) (rest : List Vsn) (h : v.vsn < min_vsn) :
    clean_old_versions min_vsn (v :: rest) =
      { surv := (if (clean_old_versions min_vsn rest).headGone then []
                 else (clean_old_versions min_vsn rest).surv),
        destroyed := (clean_old_versions min_vsn rest).destroyed ++ [v],
        actions := (clean_old_versions min_vsn rest).actions ++
          (match v.deleted with
           | some w => [delete_filter w]
           | none => []),
        headGone := true } := by
  simp [clean_old_versions, Nat.not_le.mpr h]

theorem clean_headGone_cons (min_vsn : Nat) (v : Vsn) (rest : List Vsn) :
    (clean_old_versions min_vsn (v :: rest)).headGone = decide (v.vsn < min_vsn) := by
  by_cases h : min_vsn ≤ v.vsn
  · rw [clean_cons_ge _ _ _ h]
    simp
    omega
  · rw [clean_cons_lt _ _ _ (by omega)]
    simp
    omega

theorem clean_surv_sublist (min_vsn : Nat) :
    ∀ (c : List Vsn), (clean_old_versions min_vsn c).surv.Sublist c := by
  intro c
  induction c with
  | nil => simp [clean_old_versions]
  | cons v rest ih =>
    by_cases h : min_vsn ≤ v.vsn
    · rw [clean_cons_ge _ _ _ h]
      by_cases hg : (clean_old_versions min_vsn rest).headGone
      · simp only [hg, if_pos]
        exact List.Sublist.cons₂ v (List.nil_sublist rest)
      · simp only [hg, Bool.false_eq_true, if_neg]
        exact List.Sublist.cons₂ v ih
    · rw [clean_cons_lt _ _ _ (by omega)]
      by_cases hg : (clean_old_versions min_vsn rest).headGone
      · simp only [hg, if_pos]
        exact List.Sublist.trans (List.nil_sublist rest) (List.sublist_cons_self v rest)
      · simp only [hg, Bool.false_eq_true, if_neg]
        exact List.Sublist.trans ih (List.sublist_cons_self v rest)

theorem clean_eq_of_pairwise (min_vsn : Nat) :
    ∀ (c : List Vsn), c.Pairwise (fun a b => b.vsn < a.vsn) →
      (clean_old_versions min_vsn c).surv = c.filter (fun v => min_vsn ≤ v.vsn) ∧
      (clean_old_versions min_vsn c).destroyed =
        (c.filter (fun v => v.vsn < min_vsn)).reverse := by
  intro c
  induction c with
  | nil => intro _; simp [clean_old_versions]
  | cons v rest ih =>
    intro hp
    have htail : rest.Pairwise (fun a b => b.vsn < a.vsn) := (List.pairwise_cons.mp hp).2
    obtain ⟨ihs, ihd⟩ := ih htail
    have hrestlt : (clean_old_versions min_vsn rest).headGone = true →
        ∀ x ∈ rest, x.vsn < min_vsn := by
      intro hg x hx
      cases rest with
      | nil => simp at hx
      | cons p ps =>
        rw [clean_headGone_cons] at hg
        have hps : p.vsn < min_vsn := by simpa using hg
        rcases List.mem_cons.mp hx with h1 | h1
        · exact h1 ▸ hps
        · have := (List.pairwise_cons.mp htail).1 x h1
          omega
    by_cases h : min_vsn ≤ v.vsn
    · rw [clean_cons_ge _ _ _ h]
      constructor
      · by_cases hg : (clean_old_versions min_vsn rest).headGone
        · have hnil : rest.filter (fun v => min_vsn ≤ v.vsn) = [] := by
            rw [List.filter_eq_nil_iff]
            intro x hx
            have := hrestlt hg x hx
            simp
            omega
          simp [hg, h, hnil]
        · simp [hg, h, ihs]
      · have hv : ¬(v.vsn < min_vsn) := by omega
        simp [ihd, hv]
    · have hv : v.vsn < min_vsn := by omega
      rw [clean_cons_lt _ _ _ hv]
      constructor
      · by_cases hg : (clean_old_versions min_vsn rest).headGone
        · have hnil : rest.filter (fun v => min_vsn ≤ v.vsn) = [] := by
            rw [List.filter_eq_nil_iff]
            intro x hx
            have := hrestlt hg x hx
            simp
            omega
          simp [hg, h, hnil]
        · simp [hg, h, ihs]
      · simp [ihd, hv]

theorem clean_actions_eq (min_vsn : Nat) :
    ∀ (c : List Vsn), (clean_old_versions min_vsn c).actions =
      (clean_old_versions min_vsn c).destroyed.filterMap
        (fun v => v.deleted.map delete_filter) := by
  intro c
  induction c with
  | nil => rfl
  | cons v rest ih =>
    by_cases h : min_vsn ≤ v.vsn
    · rw [clean_cons_ge _ _ _ h]
      exact ih
    · rw [clean_cons_lt _ _ _ (by omega)]
      simp only [List.filterMap_append, ih]
      cases hd : v.deleted <;> simp [hd]

/-! ### Lemmas about the listing folds -/

theorem mem_list_fold (entries : FilterMap) :
    ∀ (acc : List String) (k : String),
      (k ∈ entries.foldl (fun acc kv => filter_map_list_cb acc kv.1 kv.2) acc ↔
        k ∈ acc ∨ ∃ w, (k, w) ∈ entries ∧ w.is_active = true) := by
  induction entries with
  | nil => simp
  | cons kv rest ih =>
    intro acc k
    obtain ⟨k0, w0⟩ := kv
    simp only [List.foldl_cons]
    rw [ih]
    by_cases ha : w0.is_active
    · simp only [filter_map_list_cb, ha, Bool.not_true, Bool.false_eq_true, if_neg]
      simp [Prod.ext_iff, ha]
      constructor
      · rintro ((h1 | h1) | ⟨w, h1, h2⟩)
        · exact Or.inr ⟨w0, Or.inl ⟨h1, rfl⟩, ha⟩
        · exact Or.inl h1
        · exact Or.inr ⟨w, Or.inr h1, h2⟩
      · rintro (h1 | ⟨w, (⟨h1, h2⟩ | h1), h3⟩)
        · exact Or.inl (Or.inr h1)
        · exact Or.inl (Or.inl h1)
        · exact Or.inr ⟨w, h1, h3⟩
    · simp only [filter_map_list_cb, ha]
      simp [Prod.ext_iff]
      constructor
      · rintro (h1 | ⟨w, h1, h2⟩)
        · exact Or.inl h1
        · exact Or.inr ⟨w, Or.inr h1, h2⟩
      · rintro (h1 | ⟨w, (⟨h1, h2⟩ | h1), h3⟩)
        · exact Or.inl h1
        · exact absurd (h2 ▸ h3) (by simpa using ha)
        · exact Or.inr ⟨w, h1, h3⟩

theorem cold_scan_mem (entries : FilterMap) :
    ∀ (acc : List String) (k : String),
      (k ∈ (cold_scan entries acc).2 ↔
        k ∈ acc ∨ ∃ w, (k, w) ∈ entries ∧ w.is_hot = false ∧ w.filter.proxied = false) := by
  induction entries with
  | nil => simp [cold_scan]
  | cons kv rest ih =>
    intro acc k
    obtain ⟨k0, w0⟩ := kv
    simp only [cold_scan]
    rw [ih]
    by_cases hh : w0.is_hot
    · simp only [filter_map_list_cold_cb, hh, if_pos]
      simp [Prod.ext_iff]
      constructor
      · rintro (h1 | ⟨w, h1, h2⟩)
        · exact Or.inl h1
        · exact Or.inr ⟨w, Or.inr h1, h2⟩
      · rintro (h1 | ⟨w, (⟨h1, h2⟩ | h1), h3⟩)
        · exact Or.inl h1
        · exact absurd (h2 ▸ h3.1) (by simpa using hh)
        · exact Or.inr ⟨w, h1, h3⟩
    · by_cases hp : w0.filter.proxied
      · simp only [filter_map_list_cold_cb, hh, if_neg, hp, if_pos]
        simp [Prod.ext_iff]
        constructor
        · rintro (h1 | ⟨w, h1, h2⟩)
          · exact Or.inl h1
          · exact Or.inr ⟨w, Or.inr h1, h2⟩
        · rintro (h1 | ⟨w, (⟨h1, h2⟩ | h1), h3⟩)
          · exact Or.inl h1
          · exact absurd (h2 ▸ h3.2) (by simpa using hp)
          · exact Or.inr ⟨w, h1, h3⟩
      · simp only [filter_map_list_cold_cb, hh, hp, if_neg]
        simp [Prod.ext_iff]
        constructor
        · rintro ((h1 | h1) | ⟨w, h1, h2⟩)
          · exact Or.inr ⟨w0, Or.inl ⟨h1, rfl⟩,
              by simpa using hh, by simpa using hp⟩
          · exact Or.inl h1
          · exact Or.inr ⟨w, Or.inr h1, h2⟩
        · rintro (h1 | ⟨w, (⟨h1, h2⟩ | h1), h3⟩)
          · exact Or.inl (Or.inr h1)
          · exact Or.inl (Or.inl h1)
          · exact Or.inr ⟨w, h1, h3⟩

theorem cold_scan_fst (entries : FilterMap) :
    ∀ (acc : List String), (cold_scan entries acc).1 =
      entries.map (fun kv =>
        (kv.1, if kv.2.is_hot then { kv.2 with is_hot := false } else kv.2)) := by
  induction entries with
  | nil => intro acc; rfl
  | cons kv rest ih =>
    intro acc
    obtain ⟨k0, w0⟩ := kv
    simp only [cold_scan, List.map_cons]
    by_cases hh : w0.is_hot
    · simp [filter_map_list_cold_cb, hh, ih]
    · by_cases hp : w0.filter.proxied <;>
        simp [filter_map_list_cold_cb, hh, hp, ih]

/-! ### Lemmas about the chain invariant -/

theorem chainOrd_push (m : Mgr) (h : ChainOrd m) (nv cur : Vsn)
    (hnv : nv.vsn = m.latest.vsn + 1) (hcur : cur.vsn = m.latest.vsn) :
    ChainOrd ⟨nv, cur :: m.older⟩ := by
  unfold ChainOrd at h ⊢
  dsimp only at h ⊢
  have hhead := (List.pairwise_cons.mp h).1
  have htail := (List.pairwise_cons.mp h).2
  refine List.pairwise_cons.mpr ⟨?_, List.pairwise_cons.mpr ⟨?_, htail⟩⟩
  · intro b hb
    rcases List.mem_cons.mp hb with h1 | h1
    · subst h1; omega
    · have := hhead b h1; omega
  · intro b hb
    have := hhead b hb; omega

theorem chainOrd_of_same (m m' : Mgr) (h : ChainOrd m)
    (h1 : m'.latest.vsn = m.latest.vsn) (h2 : m'.older = m.older) : ChainOrd m' := by
  unfold ChainOrd at h ⊢
  have hhead := (List.pairwise_cons.mp h).1
  have htail := (List.pairwise_cons.mp h).2
  rw [h2]
  exact List.pairwise_cons.mpr ⟨fun b hb => h1 ▸ hhead b hb, htail⟩

theorem chainOrd_vacuum (m : Mgr) (h : ChainOrd m) : ChainOrd (filtmgr_vacuum m).1 := by
  have hsub := clean_surv_sublist m.latest.vsn (m.latest :: m.older)
  have hp := List.Pairwise.sublist hsub h
  unfold ChainOrd
  unfold filtmgr_vacuum
  rw [clean_cons_ge _ _ _ (le_refl m.latest.vsn)] at hp ⊢
  simpa using hp

/-! ### Shape of the state after each operation -/

theorem create_result (m : Mgr) (name : String) (copyOk : Bool)
    (initRes : Option BloomFilter) (res : Int) (m' : Mgr)
    (heq : filtmgr_create_filter m name copyOk initRes = some (res, m')) :
    m' = m ∨ ∃ fm, m' = ⟨⟨m.latest.vsn + 1, fm, none⟩, m.latest :: m.older⟩ := by
  unfold filtmgr_create_filter at heq
  cases hs : art_search m.latest.filter_map name with
  | some w =>
    rw [hs] at heq
    simp only [Option.some.injEq, Prod.mk.injEq] at heq
    exact Or.inl heq.2.symm
  | none =>
    rw [hs] at heq
    by_cases hpend : (m.older.any fun vsn => match vsn.deleted with
        | some w => w.filter.filter_name == name
        | none => false) = true
    · rw [if_pos hpend] at heq
      simp only [Option.some.injEq, Prod.mk.injEq] at heq
      exact Or.inl heq.2.symm
    · rw [if_neg hpend] at heq
      cases copyOk with
      | false => simp [create_new_version] at heq
      | true =>
        cases initRes with
        | none =>
          simp [create_new_version, add_filter] at heq
          exact Or.inl heq.2.symm
        | some f =>
          simp [create_new_version, add_filter] at heq
          exact Or.inr ⟨_, heq.2.symm⟩

theorem drop_result (m : Mgr) (name : String) (copyOk : Bool) (res : Int) (m' : Mgr)
    (heq : filtmgr_drop_filter m name copyOk = some (res, m')) :
    m' = m ∨ ∃ fm cur, cur.vsn = m.latest.vsn ∧
      m' = ⟨⟨m.latest.vsn + 1, fm, none⟩, cur :: m.older⟩ := by
  unfold filtmgr_drop_filter at heq
  cases ht : take_filter m.latest name with
  | none =>
    rw [ht] at heq
    simp only [Option.some.injEq, Prod.mk.injEq] at heq
    exact Or.inl heq.2.symm
  | some filt =>
    rw [ht] at heq
    cases copyOk with
    | false => simp [create_new_version] at heq
    | true =>
      simp [create_new_version] at heq
      refine Or.inr ⟨_, _, ?_, heq.2.symm⟩
      rfl

theorem clear_result (m : Mgr) (name : String) (copyOk : Bool) (res : Int) (m' : Mgr)
    (heq : filtmgr_clear_filter m name copyOk = some (res, m')) :
    m' = m ∨ ∃ fm cur, cur.vsn = m.latest.vsn ∧
      m' = ⟨⟨m.latest.vsn + 1, fm, none⟩, cur :: m.older⟩ := by
  unfold filtmgr_clear_filter at heq
  cases ht : take_filter m.latest name with
  | none =>
    rw [ht] at heq
    simp only [Option.some.injEq, Prod.mk.injEq] at heq
    exact Or.inl heq.2.symm
  | some filt =>
    rw [ht] at heq
    by_cases hpx : filt.filter.proxied
    · simp only [hpx, Bool.not_true, Bool.false_eq_true, if_neg] at heq
      cases copyOk with
      | false => simp [create_new_version] at heq
      | true =>
        simp [create_new_version] at heq
        refine Or.inr ⟨_, _, ?_, heq.2.symm⟩
        rfl
    · simp only [Bool.not_eq_true] at hpx
      simp only [hpx, Bool.not_false, if_pos, Option.some.injEq, Prod.mk.injEq] at heq
      exact Or.inl heq.2.symm

theorem check_keys_mgr (m : Mgr) (name : String) (f : String → Int)
    (keys : List String) (result : List Int) :
    (filtmgr_check_keys m name f keys result).2.1.latest.vsn = m.latest.vsn ∧
    (filtmgr_check_keys m name f keys result).2.1.older = m.older := by
  unfold filtmgr_check_keys
  cases h : take_filter m.latest name <;> simp

theorem set_keys_mgr (m : Mgr) (name : String) (f : String → Int)
    (keys : List String) (result : List Int) :
    (filtmgr_set_keys m name f keys result).2.1.latest.vsn = m.latest.vsn ∧
    (filtmgr_set_keys m name f keys result).2.1.older = m.older := by
  unfold filtmgr_set_keys
  cases h : take_filter m.latest name <;> simp

theorem cold_mgr (m : Mgr) :
    (filtmgr_list_cold_filters m).2.latest.vsn = m.latest.vsn ∧
    (filtmgr_list_cold_filters m).2.older = m.older := by
  simp [filtmgr_list_cold_filters]

/-- Every reachable registry state has a strictly decreasing version
chain from `latest` to the tail. -/
theorem reachable_chainOrd (m : Mgr) (h : Reachable m) : ChainOrd m := by
  induction h with
  | init loaded => simp [ChainOrd, init_filter_manager]
  | create_step m name copyOk initRes res m' hr heq ih =>
    rcases create_result m name copyOk initRes res m' heq with h1 | ⟨fm, h1⟩
    · exact h1 ▸ ih
    · subst h1
      exact chainOrd_push m ih _ m.latest rfl rfl
  | drop_step m name copyOk res m' hr heq ih =>
    rcases drop_result m name copyOk res m' heq with h1 | ⟨fm, cur, hcur, h1⟩
    · exact h1 ▸ ih
    · subst h1
      exact chainOrd_push m ih _ cur rfl hcur
  | clear_step m name copyOk res m' hr heq ih =>
    rcases clear_result m name copyOk res m' heq with h1 | ⟨fm, cur, hcur, h1⟩
    · exact h1 ▸ ih
    · subst h1
      exact chainOrd_push m ih _ cur rfl hcur
  | check_step m name contains keys result hr ih =>
    obtain ⟨h1, h2⟩ := check_keys_mgr m name contains keys result
    exact chainOrd_of_same m _ ih h1 h2
  | set_step m name add keys result hr ih =>
    obtain ⟨h1, h2⟩ := set_keys_mgr m name add keys result
    exact chainOrd_of_same m _ ih h1 h2
  | cold_step m hr ih =>
    obtain ⟨h1, h2⟩ := cold_mgr m
    exact chainOrd_of_same m _ ih h1 h2
  | vacuum_step m hr ih =>
    exact chainOrd_vacuum m ih

/-! ### Helper evaluation equations for the batch operations -/

theorem check_keys_eq_of_take (m : Mgr) (name : String) (f : String → Int)
    (keys : List String) (result : List Int) (filt : Wrapper)
    (hw : take_filter m.latest name = some filt) :
    filtmgr_check_keys m name f keys result =
      ((if (key_loop f keys result).2 = -1 then -2 else 0),
       { m with latest := { m.latest with
         filter_map := set_wrapper m.latest.filter_map name { filt with is_hot := true } } },
       (key_loop f keys result).1) := by
  unfold filtmgr_check_keys
  rw [hw]

theorem set_keys_eq_of_take (m : Mgr) (name : String) (f : String → Int)
    (keys : List String) (result : List Int) (filt : Wrapper)
    (hw : take_filter m.latest name = some filt) :
    filtmgr_set_keys m name f keys result =
      ((if (key_loop f keys result).2 = -1 then -2 else 0),
       { m with latest := { m.latest with
         filter_map := set_wrapper m.latest.filter_map name { filt with is_hot := true } } },
       (key_loop f keys result).1) := by
  unfold filtmgr_set_keys
  rw [hw]

theorem check_keys_eq_of_none (m : Mgr) (name : String) (f : String → Int)
    (keys : List String) (result : List Int)
    (hw : take_filter m.latest name = none) :
    filtmgr_check_keys m name f keys result = (-1, m, result) := by
  unfold filtmgr_check_keys
  rw [hw]

theorem set_keys_eq_of_none (m : Mgr) (name : String) (f : String → Int)
    (keys : List String) (result : List Int)
    (hw : take_filter m.latest name = none) :
    filtmgr_set_keys m name f keys result = (-1, m, result) := by
  unfold filtmgr_set_keys
  rw [hw]

/-! ### Concrete fixtures used by the witnesses -/

def exFilterA : BloomFilter :=
  { filter_name := "a", in_memory := false, proxied := false }

def exActiveW : Wrapper :=
  { is_active := true, is_hot := false, should_delete := false, filter := exFilterA }

def exInactiveW : Wrapper :=
  { is_active := false, is_hot := false, should_delete := false, filter := exFilterA }

def exParkedW : Wrapper :=
  { is_active := false, is_hot := false, should_delete := true, filter := exFilterA }

def exClosedW : Wrapper :=
  { is_active := false, is_hot := false, should_delete := false, filter := exFilterA }

def exDroppedW : Wrapper :=
  { is_active := false, is_hot := false, should_delete := true, filter := exFilterA }

def exHotW : Wrapper :=
  { is_active := true, is_hot := true, should_delete := false, filter := exFilterA }

def exMgrA : Mgr := ⟨⟨0, [("a", exActiveW)], none⟩, []⟩

def exMgrPending : Mgr :=
  ⟨⟨1, [], none⟩, [⟨0, [("a", exParkedW)], some exParkedW⟩]⟩

/-! ### Claim theorems -/

/-- C1: For a version chain with strictly increasing version numbers from
tail to latest and any min_vsn, clean_old_versions destroys exactly the
versions with vsn < min_vsn (oldest first), invoking delete_filter on
each destroyed version's parked wrapper — which removes files iff
should_delete and otherwise only closes —, leaves exactly the versions
with vsn ≥ min_vsn as the chain (so the oldest survivor has no prev
link), and never destroys latest when min_vsn ≤ latest.vsn; filtmgr_vacuum,
which uses min_vsn = latest.vsn, destroys every strictly older version
and leaves latest with no prev. -/
theorem C1_clean_old_versions_spec (latest : Vsn) (older : List Vsn) (min_vsn : Nat)
    (hchain : (latest :: older).Pairwise (fun a b => b.vsn < a.vsn)) :
    (clean_old_versions min_vsn (latest :: older)).destroyed =
        ((latest :: older).filter (fun v => v.vsn < min_vsn)).reverse ∧
    (clean_old_versions min_vsn (latest :: older)).surv =
        (latest :: older).filter (fun v => min_vsn ≤ v.vsn) ∧
    (clean_old_versions min_vsn (latest :: older)).actions =
        (clean_old_versions min_vsn (latest :: older)).destroyed.filterMap
          (fun v => v.deleted.map delete_filter) ∧
    (∀ w : Wrapper, (delete_filter w = FilterAction.deleteFiles ↔ w.should_delete = true) ∧
      (delete_filter w = FilterAction.closeOnly ↔ w.should_delete = false)) ∧
    (min_vsn ≤ latest.vsn → (clean_old_versions min_vsn (latest :: older)).headGone = false) ∧
    (filtmgr_vacuum ⟨latest, older⟩).1 = ⟨latest, []⟩ ∧
    (filtmgr_vacuum ⟨latest, older⟩).2.destroyed = older.reverse := by
  obtain ⟨hs, hd⟩ := clean_eq_of_pairwise min_vsn (latest :: older) hchain
  have hhead := (List.pairwise_cons.mp hchain).1
  refine ⟨hd, hs, clean_actions_eq min_vsn _, ?_, ?_, ?_, ?_⟩
  · intro w
    unfold delete_filter
    by_cases h : w.should_delete <;> simp [h]
  · intro hle
    rw [clean_headGone_cons]
    simp
    omega
  · obtain ⟨hs2, _⟩ := clean_eq_of_pairwise latest.vsn (latest :: older) hchain
    have hnil : older.filter (fun v => latest.vsn ≤ v.vsn) = [] := by
      rw [List.filter_eq_nil_iff]
      intro x hx
      have := hhead x hx
      simp
      omega
    unfold filtmgr_vacuum
    dsimp only
    rw [hs2]
    simp [hnil]
  · obtain ⟨_, hd2⟩ := clean_eq_of_pairwise latest.vsn (latest :: older) hchain
    have hself : older.filter (fun v => v.vsn < latest.vsn) = older := by
      rw [List.filter_eq_self]
      intro x hx
      have := hhead x hx
      simpa using this
    unfold filtmgr_vacuum
    dsimp only
    rw [hd2]
    simp [hself]

theorem C1_witness :
    (clean_old_versions 2 [⟨2, [], none⟩, ⟨1, [], some exParkedW⟩, ⟨0, [], some exClosedW⟩]).destroyed =
      [⟨0, [], some exClosedW⟩, ⟨1, [], some exParkedW⟩] ∧
    (clean_old_versions 2 [⟨2, [], none⟩, ⟨1, [], some exParkedW⟩, ⟨0, [], some exClosedW⟩]).actions =
      [FilterAction.closeOnly, FilterAction.deleteFiles] := by
  have h := C1_clean_old_versions_spec ⟨2, [], none⟩
    [⟨1, [], some exParkedW⟩, ⟨0, [], some exClosedW⟩] 2 (by decide)
  refine ⟨h.1.trans (by decide), ?_⟩
  rw [h.2.2.1, h.1]
  decide

/-- C5: create / drop / clear build each new version with vsn one above
the previous latest and prev pointing at it (create_new_version); the
initial version has number 0; hence every reachable registry state has a
version chain with strictly increasing version numbers from tail to head
(equivalently, strictly decreasing from latest), with no duplicate
version numbers (so the chain is acyclic). -/
theorem C5_chain_monotonicity :
    (∀ (m : Mgr), create_new_version m true =
      some { vsn := m.latest.vsn + 1, filter_map := m.latest.filter_map, deleted := none }) ∧
    (∀ (loaded : FilterMap), (init_filter_manager loaded).latest.vsn = 0 ∧
      (init_filter_manager loaded).older = []) ∧
    (∀ (m : Mgr), Reachable m →
      (m.latest :: m.older).Pairwise (fun a b => b.vsn < a.vsn) ∧ (vsns m).Nodup) := by
  refine ⟨fun m => rfl, fun loaded => ⟨rfl, rfl⟩, fun m h => ?_⟩
  have hp := reachable_chainOrd m h
  refine ⟨hp, ?_⟩
  have hgt : (vsns m).Pairwise (fun a b => b < a) := by
    unfold vsns
    exact List.pairwise_map.mpr hp
  exact hgt.imp (fun hab => (Nat.ne_of_lt hab).symm)

def mC5 : Mgr := ⟨⟨1, [("a", exHotW)], none⟩, [⟨0, [], none⟩]⟩

theorem C5_witness :
    (mC5.latest :: mC5.older).Pairwise (fun a b => b.vsn < a.vsn) ∧ (vsns mC5).Nodup :=
  C5_chain_monotonicity.2.2 mC5
    (Reachable.create_step (init_filter_manager []) "a" true (some exFilterA) 0 mC5
      (Reachable.init []) (by decide))

/-- C7 (code evaluated at the failing input): when the structural index
copy fails while create or drop builds its new version, the C code does
not abort with -2 — create_new_version returns NULL and the callers pass
the NULL version to add_filter / art_delete / destroy_version, which
dereference it.  The model result is `none` (undefined behavior), not
`some (-2, unchanged state)`. -/
theorem C7_copy_failure_behavior :
    filtmgr_create_filter (init_filter_manager []) "foo" false (some exFilterA) = none ∧
    filtmgr_drop_filter exMgrA "a" false = none ∧
    filtmgr_create_filter (init_filter_manager []) "foo" false (some exFilterA) ≠
      some (-2, init_filter_manager []) := by
  refine ⟨by decide, by decide, by decide⟩

/-- C8 counterexample: the directory entry named exactly "bloomd."
(7 characters) is rejected by the loader's length check, not admitted:
filter_bloomd_folders returns false on it. -/
theorem C8_counterexample : filter_bloomd_folders "bloomd." = false := by decide

/-- C8 (amended): the loader's directory filter accepts exactly the
entries whose names begin with "bloomd." and have length at least 8; the
entry named exactly "bloomd." (7 characters) is rejected by the length
check, and every loaded filter name is obtained by stripping the 7-char
head from an accepted entry of length at least 8. -/
theorem C8_loader_filter :
    (∀ (name : String), filter_bloomd_folders name = true ↔
      8 ≤ name.length ∧ name.data.take 7 = "bloomd.".data) ∧
    filter_bloomd_folders "bloomd." = false ∧
    (∀ (entries : List String) (nm : String), nm ∈ load_existing_filters entries →
      ∃ n ∈ entries, 8 ≤ n.length ∧ n.data.take 7 = "bloomd.".data ∧ nm = n.drop 7) := by
  refine ⟨?_, by decide, ?_⟩
  · intro name
    unfold filter_bloomd_folders
    by_cases h : name.length < 8
    · simp [h]
    · rw [if_neg h]
      simp [Nat.not_lt.mp h]
  · intro entries nm hmem
    unfold load_existing_filters at hmem
    obtain ⟨n, hn, hdrop⟩ := List.mem_map.mp hmem
    obtain ⟨hne, hfb⟩ := List.mem_filter.mp hn
    unfold filter_bloomd_folders at hfb
    by_cases h : n.length < 8
    · rw [if_pos h] at hfb
      exact Bool.noConfusion hfb
    · rw [if_neg h] at hfb
      exact ⟨n, hne, Nat.not_lt.mp h, by simpa using hfb, hdrop.symm⟩

theorem C8_witness :
    ∃ n ∈ ["bloomd.xy"], 8 ≤ n.length ∧ n.data.take 7 = "bloomd.".data ∧ "xy" = n.drop 7 :=
  C8_loader_filter.2.2 ["bloomd.xy"] "xy" (by decide)

/-- C2: For every state in which the name is not present in the latest
index, create returns -3 if and only if some older unreclaimed version's
deleted wrapper carries a filter with that name, and whenever -3 is
returned the state is unchanged (no new version installed). -/
theorem C2_pending_delete_exclusion (m : Mgr) (name : String) (copyOk : Bool)
    (initRes : Option BloomFilter)
    (habs : art_search m.latest.filter_map name = none) :
    (filtmgr_create_filter m name copyOk initRes = some (-3, m) ↔
      ∃ v ∈ m.older, ∃ w, v.deleted = some w ∧ w.filter.filter_name = name) ∧
    (∀ (res : Int) (m' : Mgr), filtmgr_create_filter m name copyOk initRes = some (res, m') →
      res = -3 → m' = m) := by
  have hany : ((m.older.any fun vsn => match vsn.deleted with
      | some w => w.filter.filter_name == name
      | none => false) = true) ↔
      ∃ v ∈ m.older, ∃ w, v.deleted = some w ∧ w.filter.filter_name = name := by
    rw [List.any_eq_true]
    constructor
    · rintro ⟨v, hv, hmatch⟩
      cases hd : v.deleted with
      | none => rw [hd] at hmatch; exact Bool.noConfusion hmatch
      | some w =>
        rw [hd] at hmatch
        exact ⟨v, hv, w, hd, by simpa using hmatch⟩
    · rintro ⟨v, hv, w, hd, hw⟩
      refine ⟨v, hv, ?_⟩
      rw [hd]
      simpa using hw
  constructor
  · constructor
    · intro heq
      by_contra hnp
      have hpend : ¬((m.older.any fun vsn => match vsn.deleted with
          | some w => w.filter.filter_name == name
          | none => false) = true) := fun hc => hnp (hany.mp hc)
      unfold filtmgr_create_filter at heq
      rw [habs, if_neg hpend] at heq
      cases copyOk with
      | false => simp [create_new_version] at heq
      | true =>
        cases initRes with
        | none => simp [create_new_version, add_filter] at heq
        | some f => simp [create_new_version, add_filter] at heq
    · intro hex
      unfold filtmgr_create_filter
      rw [habs, if_pos (hany.mpr hex)]
  · intro res m' heq hres
    unfold filtmgr_create_filter at heq
    rw [habs] at heq
    by_cases hpend : ((m.older.any fun vsn => match vsn.deleted with
        | some w => w.filter.filter_name == name
        | none => false) = true)
    · rw [if_pos hpend] at heq
      simp only [Option.some.injEq, Prod.mk.injEq] at heq
      exact heq.2.symm
    · rw [if_neg hpend] at heq
      cases copyOk with
      | false => simp [create_new_version] at heq
      | true =>
        cases initRes with
        | none =>
          simp [create_new_version, add_filter] at heq
          obtain ⟨h1, -⟩ := heq
          omega
        | some f =>
          simp [create_new_version, add_filter] at heq
          obtain ⟨h1, -⟩ := heq
          omega

theorem C2_witness :
    filtmgr_create_filter exMgrPending "a" true (some exFilterA) = some (-3, exMgrPending) :=
  (C2_pending_delete_exclusion exMgrPending "a" true (some exFilterA) (by decide)).1.mpr
    ⟨⟨0, [("a", exParkedW)], some exParkedW⟩, by decide, exParkedW, rfl, rfl⟩

/-- C3: When the name resolves via take_filter to an active wrapper W,
drop returns 0, marks W inactive and to-be-deleted, installs a new
latest version whose index is a copy of the old one with the name
removed, and parks the updated W in the superseded version's deleted
slot; when the name is absent or its wrapper inactive (exactly the cases
in which take_filter yields none), drop returns -1 and the state is
unchanged. -/
theorem C3_drop_filter_spec (m : Mgr) (name : String) :
    (∀ (w : Wrapper), take_filter m.latest name = some w →
      filtmgr_drop_filter m name true =
        some (0,
          { latest := { vsn := m.latest.vsn + 1,
                        filter_map := art_delete m.latest.filter_map name,
                        deleted := none },
            older := { vsn := m.latest.vsn,
                       filter_map := set_wrapper m.latest.filter_map name
                         { w with is_active := false, should_delete := true },
                       deleted := some { w with is_active := false, should_delete := true } }
                     :: m.older }) ∧
      ({ w with is_active := false, should_delete := true } : Wrapper).is_active = false ∧
      ({ w with is_active := false, should_delete := true } : Wrapper).should_delete = true) ∧
    (take_filter m.latest name = none → filtmgr_drop_filter m name true = some (-1, m)) ∧
    (take_filter m.latest name = none ↔ (art_search m.latest.filter_map name = none ∨
      ∃ w, art_search m.latest.filter_map name = some w ∧ w.is_active = false)) := by
  refine ⟨?_, ?_, take_filter_eq_none_iff m.latest name⟩
  · intro w hw
    refine ⟨?_, rfl, rfl⟩
    have h1 : filtmgr_drop_filter m name true =
        some (0,
          { latest := { vsn := m.latest.vsn + 1,
                        filter_map := art_delete (set_wrapper m.latest.filter_map name
                          { w with is_active := false, should_delete := true }) name,
                        deleted := none },
            older := { vsn := m.latest.vsn,
                       filter_map := set_wrapper m.latest.filter_map name
                         { w with is_active := false, should_delete := true },
                       deleted := some { w with is_active := false, should_delete := true } }
                     :: m.older }) := by
      unfold filtmgr_drop_filter
      rw [hw]
      rfl
    rw [art_delete_set_wrapper] at h1
    exact h1
  · intro hw
    unfold filtmgr_drop_filter
    rw [hw]

theorem C3_witness :
    filtmgr_drop_filter exMgrA "a" true =
      some (0, ⟨⟨1, [], none⟩, [⟨0, [("a", exDroppedW)], some exDroppedW⟩]⟩) ∧
    filtmgr_drop_filter ⟨⟨0, [("a", exInactiveW)], none⟩, []⟩ "a" true =
      some (-1, ⟨⟨0, [("a", exInactiveW)], none⟩, []⟩) := by
  constructor
  · have h := (C3_drop_filter_spec exMgrA "a").1 exActiveW (by decide)
    exact h.1.trans (by decide)
  · exact (C3_drop_filter_spec ⟨⟨0, [("a", exInactiveW)], none⟩, []⟩ "a").2.1 (by decide)

/-- C4: For an active filter and equal-length key/result arrays,
check_keys and set_keys return 0 and fill every result slot with the
per-key answer when no underlying call errs; when the underlying filter
first errs at index i they return -2, slots before i hold the per-key
answers and slots from i on keep their previous contents; when the
filter is absent or inactive they return -1 and write no slot. -/
theorem C4_batch_partial_failure (m : Mgr) (name : String)
    (contains add : String → Int) (keys : List String) (result : List Int)
    (hlen : keys.length = result.length) :
    (∀ (w : Wrapper), take_filter m.latest name = some w →
      ((∀ k ∈ keys, contains k ≠ -1) →
        (filtmgr_check_keys m name contains keys result).1 = 0 ∧
        (filtmgr_check_keys m name contains keys result).2.2 = keys.map contains) ∧
      (∀ (i : Nat) (hi : i < keys.length), contains (keys.get ⟨i, hi⟩) = -1 →
        (∀ (j : Nat) (hj : j < i), contains (keys.get ⟨j, hj.trans hi⟩) ≠ -1) →
        (filtmgr_check_keys m name contains keys result).1 = -2 ∧
        (filtmgr_check_keys m name contains keys result).2.2 =
          (keys.take i).map contains ++ result.drop i)) ∧
    (∀ (w : Wrapper), take_filter m.latest name = some w →
      ((∀ k ∈ keys, add k ≠ -1) →
        (filtmgr_set_keys m name add keys result).1 = 0 ∧
        (filtmgr_set_keys m name add keys result).2.2 = keys.map add) ∧
      (∀ (i : Nat) (hi : i < keys.length), add (keys.get ⟨i, hi⟩) = -1 →
        (∀ (j : Nat) (hj : j < i), add (keys.get ⟨j, hj.trans hi⟩) ≠ -1) →
        (filtmgr_set_keys m name add keys result).1 = -2 ∧
        (filtmgr_set_keys m name add keys result).2.2 =
          (keys.take i).map add ++ result.drop i)) ∧
    (take_filter m.latest name = none →
      filtmgr_check_keys m name contains keys result = (-1, m, result) ∧
      filtmgr_set_keys m name add keys result = (-1, m, result)) := by
  refine ⟨?_, ?_, ?_⟩
  · intro w hw
    constructor
    · intro hok
      rw [check_keys_eq_of_take m name contains keys result w hw,
        key_loop_ok contains keys result hlen hok]
      constructor
      · simp
      · rfl
    · intro i hi herr hok
      rw [check_keys_eq_of_take m name contains keys result w hw,
        key_loop_err contains keys result i hi hlen herr hok]
      constructor
      · simp
      · rfl
  · intro w hw
    constructor
    · intro hok
      rw [set_keys_eq_of_take m name add keys result w hw,
        key_loop_ok add keys result hlen hok]
      constructor
      · simp
      · rfl
    · intro i hi herr hok
      rw [set_keys_eq_of_take m name add keys result w hw,
        key_loop_err add keys result i hi hlen herr hok]
      constructor
      · simp
      · rfl
  · intro hw
    exact ⟨check_keys_eq_of_none m name contains keys result hw,
      set_keys_eq_of_none m name add keys result hw⟩

def exF : String → Int := fun k => if k = "bad" then -1 else 1

theorem C4_witness :
    (filtmgr_check_keys exMgrA "a" exF ["x", "bad", "y"] [9, 9, 9]).1 = -2 ∧
    (filtmgr_check_keys exMgrA "a" exF ["x", "bad", "y"] [9, 9, 9]).2.2 = [1, 9, 9] := by
  have h := ((C4_batch_partial_failure exMgrA "a" exF exF ["x", "bad", "y"] [9, 9, 9]
      (by decide)).1 exActiveW (by decide)).2 1 (by decide)
    (by
      show exF "bad" = -1
      decide)
    (by
      intro j hj
      have hj0 : j = 0 := by omega
      subst hj0
      show exF "x" ≠ -1
      decide)
  exact ⟨h.1, h.2.trans (by decide)⟩

/-- C6: When the latest index contains an entry for the name — even one
whose wrapper is inactive — create returns -1 and the state is
unchanged. -/
theorem C6_create_existing_name (m : Mgr) (name : String) (copyOk : Bool)
    (initRes : Option BloomFilter) (w : Wrapper)
    (hfound : art_search m.latest.filter_map name = some w) :
    filtmgr_create_filter m name copyOk initRes = some (-1, m) := by
  unfold filtmgr_create_filter
  rw [hfound]

theorem C6_witness :
    filtmgr_create_filter ⟨⟨0, [("a", exInactiveW)], none⟩, []⟩ "a" true (some exFilterA) =
      some (-1, ⟨⟨0, [("a", exInactiveW)], none⟩, []⟩) ∧
    exInactiveW.is_active = false :=
  ⟨C6_create_existing_name ⟨⟨0, [("a", exInactiveW)], none⟩, []⟩ "a" true (some exFilterA)
      exInactiveW (by decide), by decide⟩

/-- C9 counterexample: a check_keys call whose underlying filter errs on
the very first key returns -2 (not 0), yet it still sets the wrapper's
is_hot flag — the source marks the filter hot unconditionally before
releasing the lock, so is_hot is not set only by calls that return 0. -/
theorem C9_counterexample :
    (filtmgr_check_keys exMgrA "a" (fun _ => -1) ["k"] [0]).1 = -2 ∧
    exActiveW.is_hot = false ∧
    art_search (filtmgr_check_keys exMgrA "a" (fun _ => -1) ["k"] [0]).2.1.latest.filter_map
      "a" = some { exActiveW with is_hot := true } := by
  decide

/-- C9 (amended): is_hot is set to true exactly by read/write traffic
that resolves the wrapper — any check_keys or set_keys call that finds
the name active, whether it then returns 0 or -2 — and by creation via
create (which installs the wrapper hot); it is set to false only by the
cold-listing sweep; flush, unmap, drop and clear never change any
surviving wrapper's is_hot. -/
theorem C9_is_hot_discipline :
    (∀ (m : Mgr) (name : String) (f : String → Int) (keys : List String)
        (result : List Int) (w : Wrapper), take_filter m.latest name = some w →
      art_search (filtmgr_check_keys m name f keys result).2.1.latest.filter_map name =
        some { w with is_hot := true }) ∧
    (∀ (m : Mgr) (name : String) (f : String → Int) (keys : List String)
        (result : List Int) (w : Wrapper), take_filter m.latest name = some w →
      art_search (filtmgr_set_keys m name f keys result).2.1.latest.filter_map name =
        some { w with is_hot := true }) ∧
    (∀ (m : Mgr) (name : String) (copyOk : Bool) (initRes : Option BloomFilter) (m' : Mgr),
      filtmgr_create_filter m name copyOk initRes = some (0, m') →
      ∃ w, art_search m'.latest.filter_map name = some w ∧ w.is_hot = true) ∧
    (∀ (m : Mgr) (name : String), (filtmgr_flush_filter m name).2 = m) ∧
    (∀ (m : Mgr) (name : String), (filtmgr_unmap_filter m name).2 = m) ∧
    (∀ (m : Mgr) (name : String) (copyOk : Bool) (res : Int) (m' : Mgr),
      filtmgr_drop_filter m name copyOk = some (res, m') →
      ∀ kv, kv ∈ m'.latest.filter_map → kv ∈ m.latest.filter_map) ∧
    (∀ (m : Mgr) (name : String) (copyOk : Bool) (res : Int) (m' : Mgr),
      filtmgr_clear_filter m name copyOk = some (res, m') →
      ∀ kv, kv ∈ m'.latest.filter_map → kv ∈ m.latest.filter_map) ∧
    (∀ (m : Mgr), (filtmgr_list_cold_filters m).2.latest.filter_map =
      m.latest.filter_map.map (fun kv =>
        (kv.1, if kv.2.is_hot then { kv.2 with is_hot := false } else kv.2))) := by
  refine ⟨?_, ?_, ?_, ?_, ?_, ?_, ?_, ?_⟩
  · intro m name f keys result w hw
    rw [check_keys_eq_of_take m name f keys result w hw]
    exact art_search_set_wrapper m.latest.filter_map name w _ (take_filter_some _ _ _ hw).1
  · intro m name f keys result w hw
    rw [set_keys_eq_of_take m name f keys result w hw]
    exact art_search_set_wrapper m.latest.filter_map name w _ (take_filter_some _ _ _ hw).1
  · intro m name copyOk initRes m' heq
    unfold filtmgr_create_filter at heq
    cases hs : art_search m.latest.filter_map name with
    | some w =>
      rw [hs] at heq
      simp only [Option.some.injEq, Prod.mk.injEq] at heq
      exact absurd heq.1 (by decide)
    | none =>
      rw [hs] at heq
      by_cases hpend : ((m.older.any fun vsn => match vsn.deleted with
          | some w => w.filter.filter_name == name
          | none => false) = true)
      · rw [if_pos hpend] at heq
        simp only [Option.some.injEq, Prod.mk.injEq] at heq
        exact absurd heq.1 (by decide)
      · rw [if_neg hpend] at heq
        cases copyOk with
        | false => simp [create_new_version] at heq
        | true =>
          cases initRes with
          | none => simp [create_new_version, add_filter] at heq
          | some f =>
            simp [create_new_version, add_filter] at heq
            refine ⟨{ is_active := true, is_hot := true, should_delete := false,
                      filter := { f with filter_name := name } }, ?_, rfl⟩
            rw [← heq]
            dsimp only
            exact art_search_insert _ _ _
  · intro m name
    unfold filtmgr_flush_filter
    cases h : take_filter m.latest name <;> rfl
  · intro m name
    unfold filtmgr_unmap_filter
    cases h : take_filter m.latest name <;> rfl
  · intro m name copyOk res m' heq kv hkv
    unfold filtmgr_drop_filter at heq
    cases ht : take_filter m.latest name with
    | none =>
      rw [ht] at heq
      simp only [Option.some.injEq, Prod.mk.injEq] at heq
      obtain ⟨-, h2⟩ := heq
      subst h2
      exact hkv
    | some filt =>
      rw [ht] at heq
      cases copyOk with
      | false => simp [create_new_version] at heq
      | true =>
        simp [create_new_version] at heq
        obtain ⟨-, h2⟩ := heq
        subst h2
        dsimp only at hkv
        rw [art_delete_set_wrapper] at hkv
        exact mem_art_delete _ _ _ hkv
  · intro m name copyOk res m' heq kv hkv
    unfold filtmgr_clear_filter at heq
    cases ht : take_filter m.latest name with
    | none =>
      rw [ht] at heq
      simp only [Option.some.injEq, Prod.mk.injEq] at heq
      obtain ⟨-, h2⟩ := heq
      subst h2
      exact hkv
    | some filt =>
      rw [ht] at heq
      by_cases hpx : filt.filter.proxied
      · simp only [hpx, Bool.not_true, Bool.false_eq_true, if_neg] at heq
        cases copyOk with
        | false => simp [create_new_version] at heq
        | true =>
          simp [create_new_version] at heq
          obtain ⟨-, h2⟩ := heq
          subst h2
          dsimp only at hkv
          rw [art_delete_set_wrapper] at hkv
          exact mem_art_delete _ _ _ hkv
      · simp only [Bool.not_eq_true] at hpx
        simp only [hpx, Bool.not_false, if_pos, Option.some.injEq, Prod.mk.injEq] at heq
        obtain ⟨-, h2⟩ := heq
        subst h2
        exact hkv
  · intro m
    simp [filtmgr_list_cold_filters, cold_scan_fst]

theorem C9_witness :
    art_search (filtmgr_check_keys exMgrA "a" (fun _ => 0) [] []).2.1.latest.filter_map "a" =
      some { exActiveW with is_hot := true } :=
  C9_is_hot_discipline.1 exMgrA "a" (fun _ => 0) [] [] exActiveW (by decide)

/-- C10: A wrapper present in the latest index with is_active false is
omitted by list (with or without a prefix), while list_cold still
considers it — it is emitted whenever it is cold and not proxied — and
the cold-listing callback never consults is_active. -/
theorem C10_list_vs_cold (m : Mgr) (pfx : Option String) (k : String) (w : Wrapper)
    (hnd : (m.latest.filter_map.map Prod.fst).Nodup)
    (hmem : (k, w) ∈ m.latest.filter_map) :
    (w.is_active = false → k ∉ filtmgr_list_filters m pfx) ∧
    (w.is_hot = false → w.filter.proxied = false →
      k ∈ (filtmgr_list_cold_filters m).1) ∧
    (∀ (acc : List String) (key : String) (w0 : Wrapper) (b : Bool),
      (filter_map_list_cold_cb acc key { w0 with is_active := b }).2 =
      (filter_map_list_cold_cb acc key w0).2) := by
  refine ⟨?_, ?_, ?_⟩
  · intro hact hcontra
    unfold filtmgr_list_filters at hcontra
    cases pfx with
    | none =>
      rw [mem_list_fold] at hcontra
      rcases hcontra with h1 | ⟨w2, h1, h2⟩
      · simp at h1
      · have he := mem_unique_of_nodup _ hnd k w w2 hmem h1
        rw [← he, hact] at h2
        exact Bool.noConfusion h2
    | some p =>
      rw [mem_list_fold] at hcontra
      rcases hcontra with h1 | ⟨w2, h1, h2⟩
      · simp at h1
      · have h3 := (List.mem_filter.mp h1).1
        have he := mem_unique_of_nodup _ hnd k w w2 hmem h3
        rw [← he, hact] at h2
        exact Bool.noConfusion h2
  · intro hh hp
    show k ∈ (cold_scan m.latest.filter_map []).2
    rw [cold_scan_mem]
    exact Or.inr ⟨w, hmem, hh, hp⟩
  · intro acc key w0 b
    by_cases h1 : w0.is_hot <;> by_cases h2 : w0.filter.proxied <;>
      simp [filter_map_list_cold_cb, h1, h2]

def exColdInactiveW : Wrapper :=
  { is_active := false, is_hot := false, should_delete := false, filter := exFilterA }

theorem C10_witness :
    ("a" ∉ filtmgr_list_filters ⟨⟨0, [("a", exColdInactiveW)], none⟩, []⟩ none) ∧
    "a" ∈ (filtmgr_list_cold_filters ⟨⟨0, [("a", exColdInactiveW)], none⟩, []⟩).1 := by
  have h := C10_list_vs_cold ⟨⟨0, [("a", exColdInactiveW)], none⟩, []⟩ none "a"
    exColdInactiveW (by decide) (by decide)
  exact ⟨h.1 rfl, h.2.1 rfl rfl⟩

end Bloomd
